import Mathlib

/-!
Verification of the geecache-style distributed cache (repository Cache).

The development shallowly embeds the Go sources:
  - the byte-bounded LRU store (src/proto-buf/geecache/lru/lru.go),
  - the consistent-hash ring (src/proto-buf/geecache/consistenthash and
    src/unnamed/part_000),
  - the group read-through path (src/proto-buf/geecache/geecache.go),
  - the HTTP peer pool picker (src/proto-buf/geecache/http.go),
  - the single-flight coalescer (src/single-flight/singleflight/singleflight.go),
and proves the behavioural claims about them.

Go strings and byte slices are modelled as lists of naturals (a Go string is a
byte sequence); int64 counters are modelled as Int (no overflow is reachable at
these magnitudes, so no modular reduction is needed); uint32 hash values are
naturals reduced mod 2^32 at the point where Go converts to the 32-bit type.
-/

/-- Go strings and byte slices: sequences of bytes. -/
abbrev Str := List Nat

/-- Byte length of a Go string / byte slice. -/
def strLen (s : Str) : Int := (s.length : Int)

/-! ### LRU store (src/proto-buf/geecache/lru/lru.go)

The Go Cache holds a doubly linked recency list and a map from key to list
node; the two always contain the same entries, so a single list (head = front
= most recently used, last = back = oldest) models both.  The optional
OnEvicted callback only performs logging in this repository and has no effect
on the cache state, so it is not modelled. -/

structure LruCache where
  maxBytes : Int
  nbytes : Int
  entries : List (Str × Str)
  deriving Repr, DecidableEq

/-- len(key) + value.Len() of one entry. -/
def entrySize (e : Str × Str) : Int := strLen e.1 + strLen e.2

/-- lru.New: fresh cache with the configured capacity. -/
def lruNew (maxBytes : Int) : LruCache := ⟨maxBytes, 0, []⟩

/-- Cache.RemoveOldest: unlink the back node, subtract its size.
A no-op when the list is empty (ll.Back() returns nil). -/
def removeOldest (c : LruCache) : LruCache :=
  if c.entries.isEmpty then c
  else
    { c with
      entries := c.entries.dropLast
      nbytes := c.nbytes - entrySize ((c.entries.getLast?).getD ([], [])) }

/-- Whether the eviction loop in Cache.Add keeps running:
for c.maxBytes != 0 && c.maxBytes < c.nbytes. -/
def evictCond (c : LruCache) : Prop := c.maxBytes ≠ 0 ∧ c.maxBytes < c.nbytes

instance (c : LruCache) : Decidable (evictCond c) := by
  unfold evictCond; infer_instance

/-- The eviction loop of Cache.Add, driven by fuel.  Each productive
iteration removes exactly one entry, so fuel = number of entries suffices;
once the list is empty RemoveOldest no longer changes the state and the Go
loop spins forever, which the model reports as none. -/
def evictGo : Nat → LruCache → Option LruCache
  | 0, c => if evictCond c then none else some c
  | n + 1, c => if evictCond c then evictGo n (removeOldest c) else some c

/-- The post-write eviction phase of Cache.Add. -/
def evictLoop (c : LruCache) : Option LruCache := evictGo c.entries.length c

/-- The write phase of Cache.Add, before the eviction loop: update the value
and move the node to the front when the key is present, otherwise push a new
front node; adjust the byte counter accordingly. -/
def lruInsertFront (c : LruCache) (k v : Str) : LruCache :=
  match c.entries.find? (fun e => e.1 == k) with
  | some e =>
    { c with
      entries := (e.1, v) :: c.entries.eraseP (fun e2 => e2.1 == k)
      nbytes := c.nbytes + strLen v - strLen e.2 }
  | none =>
    { c with
      entries := (k, v) :: c.entries
      nbytes := c.nbytes + strLen k + strLen v }

/-- Cache.Add.  Returns none when the eviction loop does not terminate
(possible only with a negative capacity). -/
def lruAdd (c : LruCache) (k v : Str) : Option LruCache :=
  evictLoop (lruInsertFront c k v)

/-- Cache.Get: on a hit move the node to the front and return its value. -/
def lruGet (c : LruCache) (k : Str) : Option Str × LruCache :=
  match c.entries.find? (fun e => e.1 == k) with
  | some e => (some e.2, { c with entries := e :: c.entries.eraseP (fun e2 => e2.1 == k) })
  | none => (none, c)

/-- The LRU operations of the claims. -/
inductive LruOp where
  | add (k v : Str)
  | get (k : Str)
  | removeO
  deriving Repr

/-- Run one operation; add can diverge (none). -/
def runLruOp (c : LruCache) : LruOp → Option LruCache
  | .add k v => lruAdd c k v
  | .get k => some (lruGet c k).2
  | .removeO => some (removeOldest c)

/-- Run a sequence of operations from a fresh cache of the given capacity. -/
def runLruOps (cap : Int) (ops : List LruOp) : Option LruCache :=
  ops.foldlM runLruOp (lruNew cap)

/-- Sum of entry sizes, the value the byte counter is supposed to track. -/
def sumSize (es : List (Str × Str)) : Int := (es.map entrySize).sum

example : lruAdd (lruNew 0) [1] [2, 3] = some ⟨0, 3, [([1], [2, 3])]⟩ := by decide

example : lruAdd (lruNew 1) [10] [20, 30] = some ⟨1, 0, []⟩ := by decide

/-! ### LRU lemmas -/

/-- If the eviction loop returned, its condition is false at the result. -/
theorem evictGo_some (n : Nat) (c c' : LruCache) (h : evictGo n c = some c') :
    ¬ evictCond c' := by
  induction n generalizing c with
  | zero =>
    unfold evictGo at h
    by_cases hc : evictCond c
    · simp [hc] at h
    · simp [hc] at h; subst h; exact hc
  | succ n ih =>
    unfold evictGo at h
    by_cases hc : evictCond c
    · simp [hc] at h; exact ih _ h
    · simp [hc] at h; subst h; exact hc

/-- When the loop condition is already false the loop is the identity. -/
theorem evictGo_of_not_cond (n : Nat) (c : LruCache) (h : ¬ evictCond c) :
    evictGo n c = some c := by
  cases n <;> simp [evictGo, h]

/-- The first list element found by find? can be split off as a permutation. -/
theorem perm_cons_eraseP_of_find? {α : Type} (p : α → Bool) (l : List α) (a : α)
    (h : l.find? p = some a) : l.Perm (a :: l.eraseP p) := by
  induction l with
  | nil => simp at h
  | cons x xs ih =>
    by_cases hx : p x
    · rw [List.find?_cons_of_pos _ hx] at h
      cases h
      rw [List.eraseP_cons_of_pos hx]
    · rw [List.find?_cons_of_neg _ hx] at h
      rw [List.eraseP_cons_of_neg (by simpa using hx)]
      exact ((ih h).cons x).trans (List.Perm.swap a x _)

/-- Entry sizes are nonnegative. -/
theorem entrySize_nonneg (e : Str × Str) : 0 ≤ entrySize e := by
  unfold entrySize strLen; positivity

theorem sumSize_nonneg (es : List (Str × Str)) : 0 ≤ sumSize es := by
  refine List.sum_nonneg ?_
  intro x hx
  obtain ⟨e, _, rfl⟩ := List.mem_map.mp hx
  exact entrySize_nonneg e

theorem sumSize_cons (e : Str × Str) (es : List (Str × Str)) :
    sumSize (e :: es) = entrySize e + sumSize es := by
  simp [sumSize]

theorem sumSize_perm {es es' : List (Str × Str)} (h : es.Perm es') :
    sumSize es = sumSize es' := (h.map entrySize).sum_eq

/-- A well-formed LRU state: the counter matches the entries and keys are
unique (the Go map guarantees one node per key). -/
def goodState (c : LruCache) : Prop :=
  c.nbytes = sumSize c.entries ∧ (c.entries.map Prod.fst).Nodup

instance (c : LruCache) : Decidable (goodState c) := by
  unfold goodState; infer_instance

theorem insertFront_good (c : LruCache) (k v : Str) (h : goodState c) :
    goodState (lruInsertFront c k v) := by
  obtain ⟨hsum, hnd⟩ := h
  unfold lruInsertFront
  cases hfind : c.entries.find? (fun e => e.1 == k) with
  | none =>
    have hk : ∀ e ∈ c.entries, e.1 ≠ k := by
      intro e he hek
      have := List.find?_eq_none.mp hfind e he
      simp [hek] at this
    constructor
    · simp only [sumSize_cons, hsum, entrySize, strLen]
      ring
    · simp only [List.map_cons]
      refine List.nodup_cons.mpr ⟨?_, hnd⟩
      intro hmem
      obtain ⟨e, he, hek⟩ := List.mem_map.mp hmem
      exact hk e he hek
  | some e =>
    have hperm := perm_cons_eraseP_of_find? _ _ _ hfind
    have hsum' : sumSize c.entries = entrySize e + sumSize (c.entries.eraseP (fun e2 => e2.1 == k)) := by
      rw [sumSize_perm hperm, sumSize_cons]
    constructor
    · simp only [sumSize_cons, hsum, hsum', entrySize, strLen]
      ring
    · have hmap := hperm.map Prod.fst
      have : (c.entries.map Prod.fst).Nodup := hnd
      have hnd' := this.perm hmap
      simp only [List.map_cons] at hnd' ⊢
      exact hnd'

theorem removeOldest_good (c : LruCache) (h : goodState c) :
    goodState (removeOldest c) := by
  obtain ⟨hsum, hnd⟩ := h
  by_cases he : c.entries.isEmpty
  · unfold removeOldest
    rw [if_pos he]
    exact ⟨hsum, hnd⟩
  · have hne : c.entries ≠ [] := by
      simpa [List.isEmpty_iff] using he
    have hlast : c.entries.getLast? = some (c.entries.getLast hne) :=
      List.getLast?_eq_getLast _ hne
    have hsplit : c.entries.dropLast ++ [c.entries.getLast hne] = c.entries :=
      List.dropLast_append_getLast hne
    have hsumsplit : sumSize c.entries
        = sumSize c.entries.dropLast + entrySize (c.entries.getLast hne) := by
      conv_lhs => rw [← hsplit]
      simp [sumSize]
    unfold removeOldest
    rw [if_neg he]
    refine ⟨?_, ?_⟩
    · simp only [hlast, Option.getD_some, hsum, hsumsplit]
      ring
    · exact hnd.sublist ((List.dropLast_sublist _).map Prod.fst)

theorem evictGo_good (n : Nat) (c c' : LruCache) (hg : goodState c)
    (h : evictGo n c = some c') : goodState c' := by
  induction n generalizing c with
  | zero =>
    unfold evictGo at h
    by_cases hc : evictCond c
    · simp [hc] at h
    · simp [hc] at h; subst h; exact hg
  | succ n ih =>
    unfold evictGo at h
    by_cases hc : evictCond c
    · simp [hc] at h; exact ih _ (removeOldest_good _ hg) h
    · simp [hc] at h; subst h; exact hg

theorem lruAdd_good (c : LruCache) (k v : Str) (c' : LruCache) (hg : goodState c)
    (h : lruAdd c k v = some c') : goodState c' :=
  evictGo_good _ _ _ (insertFront_good c k v hg) h

theorem lruGet_good (c : LruCache) (k : Str) (hg : goodState c) :
    goodState (lruGet c k).2 := by
  obtain ⟨hsum, hnd⟩ := hg
  unfold lruGet
  cases hfind : c.entries.find? (fun e => e.1 == k) with
  | none => exact ⟨hsum, hnd⟩
  | some e =>
    have hperm := perm_cons_eraseP_of_find? _ _ _ hfind
    constructor
    · simpa [hsum] using sumSize_perm hperm
    · exact hnd.perm (hperm.map Prod.fst)

theorem runLruOp_good (c : LruCache) (op : LruOp) (c' : LruCache) (hg : goodState c)
    (h : runLruOp c op = some c') : goodState c' := by
  cases op with
  | add k v => exact lruAdd_good _ k v _ hg h
  | get k =>
    simp only [runLruOp, Option.some.injEq] at h
    subst h; exact lruGet_good _ _ hg
  | removeO =>
    simp only [runLruOp, Option.some.injEq] at h
    subst h; exact removeOldest_good _ hg

theorem foldlM_lruOp_good (ops : List LruOp) (a c : LruCache) (hg : goodState a)
    (h : ops.foldlM runLruOp a = some c) : goodState c := by
  induction ops generalizing a with
  | nil => simp [List.foldlM] at h; subst h; exact hg
  | cons op ops ih =>
    rw [List.foldlM_cons] at h
    cases hop : runLruOp a op with
    | none => simp [hop] at h
    | some a' =>
      simp only [hop, Option.bind_eq_bind, Option.some_bind] at h
      exact ih a' (runLruOp_good a op a' hg hop) h

theorem runLruOps_good (cap : Int) (ops : List LruOp) (c : LruCache)
    (h : runLruOps cap ops = some c) : goodState c :=
  foldlM_lruOp_good ops _ c (by constructor <;> simp [lruNew, sumSize]) h

theorem insertFront_maxBytes (c : LruCache) (k v : Str) :
    (lruInsertFront c k v).maxBytes = c.maxBytes := by
  unfold lruInsertFront
  cases c.entries.find? (fun e => e.1 == k) <;> simp

theorem removeOldest_maxBytes (c : LruCache) :
    (removeOldest c).maxBytes = c.maxBytes := by
  unfold removeOldest
  by_cases he : c.entries.isEmpty <;> simp [he]

/-- The head of the entry list right after the write phase is the written
pair (in the update branch the stored key equals the looked-up key). -/
theorem insertFront_head (c : LruCache) (k v : Str) :
    ∃ rest, (lruInsertFront c k v).entries = (k, v) :: rest := by
  unfold lruInsertFront
  cases hfind : c.entries.find? (fun e => e.1 == k) with
  | none => exact ⟨c.entries, rfl⟩
  | some e =>
    have he : e.1 = k := by
      have := List.find?_some hfind
      simpa using this
    exact ⟨List.eraseP (fun e2 => e2.1 == k) c.entries, by simp [he]⟩

/-- With a front entry bigger than a positive capacity, the eviction loop
removes every entry, the new one included, and the counter ends at zero. -/
theorem evictGo_oversized (n : Nat) (c : LruCache) (k0 v0 : Str) (tail : List (Str × Str))
    (hent : c.entries = (k0, v0) :: tail) (hg : goodState c) (hcap : 0 < c.maxBytes)
    (hbig : c.maxBytes < entrySize (k0, v0)) (hn : c.entries.length ≤ n) :
    evictGo n c = some ⟨c.maxBytes, 0, []⟩ := by
  induction n generalizing c tail with
  | zero => rw [hent] at hn; simp at hn
  | succ n ih =>
    have hsum := hg.1
    have hnb : c.maxBytes < c.nbytes := by
      have htail : 0 ≤ sumSize tail := sumSize_nonneg tail
      have : c.nbytes = entrySize (k0, v0) + sumSize tail := by
        rw [hsum, hent, sumSize_cons]
      omega
    have hcond : evictCond c := ⟨by omega, hnb⟩
    rw [evictGo, if_pos hcond]
    cases tail with
    | nil =>
      have hne : ¬ c.entries.isEmpty := by simp [hent]
      have hr : removeOldest c = ⟨c.maxBytes, 0, []⟩ := by
        unfold removeOldest
        rw [if_neg hne]
        have h0 : c.nbytes = entrySize (k0, v0) := by
          rw [hsum, hent, sumSize_cons]; simp [sumSize]
        simp [hent, h0]
      rw [hr]
      refine evictGo_of_not_cond n _ ?_
      rintro ⟨-, hlt⟩
      simp only at hlt
      omega
    | cons t ts =>
      have hne : ¬ c.entries.isEmpty := by simp [hent]
      have hdrop : c.entries.dropLast = (k0, v0) :: (t :: ts).dropLast := by
        rw [hent]; simp [List.dropLast_cons₂]
      have hrm : (removeOldest c).entries = (k0, v0) :: (t :: ts).dropLast := by
        unfold removeOldest
        rw [if_neg hne]
        exact hdrop
      have hlen : (removeOldest c).entries.length ≤ n := by
        rw [hrm]
        have : c.entries.length = ts.length + 2 := by rw [hent]; simp
        have hlen2 : ((t :: ts).dropLast).length = ts.length := by simp
        simp only [List.length_cons, hlen2]
        omega
      have := ih (removeOldest c) ((t :: ts).dropLast) hrm
        (removeOldest_good c hg) (by rw [removeOldest_maxBytes]; exact hcap)
        (by rw [removeOldest_maxBytes]; exact hbig) hlen
      rw [this, removeOldest_maxBytes]

/-- C2: after every terminating add, the configured capacity is zero or the
byte counter is at most the capacity; and with capacity zero the add returns
without evicting (the write phase is the whole effect, so every prior entry
with a different key and the new entry are resident afterwards), and a get
never removes entries either. -/
theorem lru_add_capacity_bound (c : LruCache) (k v : Str) :
    (∀ c', lruAdd c k v = some c' → c'.maxBytes = 0 ∨ c'.nbytes ≤ c'.maxBytes) ∧
    (c.maxBytes = 0 →
      lruAdd c k v = some (lruInsertFront c k v) ∧
      (k, v) ∈ (lruInsertFront c k v).entries ∧
      (∀ e, e ∈ c.entries → e.1 ≠ k → e ∈ (lruInsertFront c k v).entries) ∧
      (∀ q, ((lruGet c q).2.entries).Perm c.entries)) := by
  constructor
  · intro c' h
    have := evictGo_some _ _ _ h
    unfold evictCond at this
    push_neg at this
    by_cases h0 : c'.maxBytes = 0
    · exact Or.inl h0
    · exact Or.inr (this h0)
  · intro h0
    refine ⟨?_, ?_, ?_, ?_⟩
    · unfold lruAdd evictLoop
      refine evictGo_of_not_cond _ _ ?_
      rintro ⟨hne, -⟩
      rw [insertFront_maxBytes] at hne
      exact hne h0
    · obtain ⟨rest, hrest⟩ := insertFront_head c k v
      rw [hrest]
      exact List.mem_cons_self _ _
    · intro e he hek
      unfold lruInsertFront
      cases hfind : c.entries.find? (fun e2 => e2.1 == k) with
      | none => exact List.mem_cons_of_mem _ he
      | some e' =>
        refine List.mem_cons_of_mem _ ?_
        refine (List.mem_eraseP_of_neg ?_).mpr he
        simp [hek]
    · intro q
      unfold lruGet
      cases hfind : c.entries.find? (fun e2 => e2.1 == q) with
      | none => simp
      | some e' =>
        exact (perm_cons_eraseP_of_find? _ _ _ hfind).symm

/-- Witness for lru_add_capacity_bound at concrete inputs. -/
theorem lru_add_capacity_bound_witness :
    ((⟨5, 3, [([1], [2, 3])]⟩ : LruCache).maxBytes = 0 ∨
      (⟨5, 3, [([1], [2, 3])]⟩ : LruCache).nbytes ≤ (⟨5, 3, [([1], [2, 3])]⟩ : LruCache).maxBytes) ∧
    lruAdd (lruNew 0) [1] [2] = some (lruInsertFront (lruNew 0) [1] [2]) := by
  refine ⟨(lru_add_capacity_bound (lruNew 5) [1] [2, 3]).1 _ (by decide), ?_⟩
  exact ((lru_add_capacity_bound (lruNew 0) [1] [2]).2 (by decide)).1

/-- C3 counterexample: a fresh cache with capacity 1 receives an entry of
size 3; the code empties the cache instead of keeping that entry resident. -/
theorem lru_oversized_insert_cex :
    (lruAdd (lruNew 1) [10] [20, 30]).map LruCache.entries = some [] ∧
    some ([] : List (Str × Str)) ≠ some [([10], [20, 30])] := by
  decide

/-- C3 amended: with positive capacity, inserting an entry whose size alone
exceeds the capacity makes the eviction loop remove everything, the new entry
included: the add returns an empty cache with a zero counter. -/
theorem lru_oversized_insert_evicts_all (c : LruCache) (k v : Str)
    (hg : goodState c) (hcap : 0 < c.maxBytes) (hbig : c.maxBytes < strLen k + strLen v) :
    lruAdd c k v = some ⟨c.maxBytes, 0, []⟩ := by
  obtain ⟨rest, hrest⟩ := insertFront_head c k v
  unfold lruAdd evictLoop
  have := evictGo_oversized ((lruInsertFront c k v).entries.length)
    (lruInsertFront c k v) k v rest hrest (insertFront_good c k v hg)
    (by rw [insertFront_maxBytes]; exact hcap)
    (by rw [insertFront_maxBytes]; exact hbig) le_rfl
  rw [this, insertFront_maxBytes]

/-- Witness for lru_oversized_insert_evicts_all at concrete inputs. -/
theorem lru_oversized_insert_evicts_all_witness :
    lruAdd (lruNew 2) [7] [8, 9] = some ⟨2, 0, []⟩ :=
  lru_oversized_insert_evicts_all (lruNew 2) [7] [8, 9] (by decide) (by decide) (by decide)

/-- C4: over any terminating operation sequence from a fresh cache, the byte
counter equals the sum of entry sizes of the resident entries. -/
theorem lru_counter_eq_sumSize (cap : Int) (ops : List LruOp) (c : LruCache)
    (h : runLruOps cap ops = some c) : c.nbytes = sumSize c.entries :=
  (runLruOps_good cap ops c h).1

/-- Witness for lru_counter_eq_sumSize at a concrete operation sequence. -/
theorem lru_counter_eq_sumSize_witness :
    (⟨10, 3, [([1], [2, 3])]⟩ : LruCache).nbytes
      = sumSize (⟨10, 3, [([1], [2, 3])]⟩ : LruCache).entries :=
  lru_counter_eq_sumSize 10 [.add [1] [2, 3]] _ (by decide)

/-! ### Consistent-hash ring
(src/proto-buf/geecache/consistenthash/consistenthash.go, src/unnamed/part_000)

The Hash field is a function from bytes to uint32; the model carries an
arbitrary function from byte strings to Nat and reduces it mod 2^32 where Go
converts to the 32-bit type (crc32.ChecksumIEEE, the default, is one such
function).  Go's sort.Ints produces the unique sorted permutation of the
slice, so any correct sorting function models it; insertionSort is used
because it evaluates by reduction.  sort.Search is Go's binary search for the
least index satisfying the predicate, modelled below step for step. -/

abbrev HashF := Str → Nat

/-- Conversion of a hash output to a uint32 value as in int(m.hash(data)). -/
def u32 (hash : HashF) (d : Str) : Nat := hash d % 2 ^ 32

/-- strconv.Itoa: decimal rendering of i as a byte string. -/
def itoa (i : Nat) : Str := (Nat.repr i).toList.map Char.toNat

/-- The sorted permutation produced by sort.Ints. -/
def sortNats (l : List Nat) : List Nat := l.insertionSort (· ≤ ·)

/-- Go's sort.Search loop: i, j := 0, n; while i < j pick mid and narrow.
The interval shrinks every iteration, so fuel = n is enough. -/
def searchGo (pred : Nat → Bool) : Nat → Nat → Nat → Nat
  | 0, i, _ => i
  | fuel + 1, i, j =>
    if i < j then
      let mid := (i + j) / 2
      if pred mid then searchGo pred fuel i mid else searchGo pred fuel (mid + 1) j
    else i

/-- sort.Search(n, pred): least index in [0, n] at which pred becomes true,
assuming pred is monotone (false then true). -/
def sortSearch (n : Nat) (pred : Nat → Bool) : Nat := searchGo pred n 0 n

structure RingMap where
  hash : HashF
  replicas : Nat
  keys : List Nat
  hashMap : Nat → Option Str

/-- consistenthash.New (the default-hash branch is one instance of hash). -/
def ringNew (replicas : Nat) (hash : HashF) : RingMap :=
  ⟨hash, replicas, [], fun _ => none⟩

/-- The virtual-node point for replica index i of peer key:
int(m.hash([]byte(strconv.Itoa(i) + key))). -/
def ringPoint (hash : HashF) (i : Nat) (key : Str) : Nat := u32 hash (itoa i ++ key)

/-- All replica points one Add(key) creates, in loop order i = 0..R-1. -/
def ringPoints (hash : HashF) (replicas : Nat) (key : Str) : List Nat :=
  (List.range replicas).map (fun i => ringPoint hash i key)

/-- The inner loop of Map.Add for a single peer: append the points, record
each point as mapping to the peer (all writes of this loop store the same
value, so the final map tests membership in the point list). -/
def ringAddOne (m : RingMap) (key : Str) : RingMap :=
  { m with
    keys := m.keys ++ ringPoints m.hash m.replicas key
    hashMap := fun p =>
      if p ∈ ringPoints m.hash m.replicas key then some key else m.hashMap p }

/-- Map.Add(keys...): add every peer, then sort the point sequence. -/
def ringAdd (m : RingMap) (peers : List Str) : RingMap :=
  let m' := peers.foldl ringAddOne m
  { m' with keys := sortNats m'.keys }

/-- Map.Get: empty ring yields the empty identifier; otherwise binary-search
the least point at or above the key's hash, wrapping via idx mod len, and
return the peer recorded at that point (Go map lookup of an absent point
yields the zero string). -/
def ringIdx (m : RingMap) (key : Str) : Nat :=
  sortSearch m.keys.length (fun i => decide (u32 m.hash key ≤ m.keys.getD i 0))

def ringGet (m : RingMap) (key : Str) : Str :=
  if m.keys = [] then []
  else (m.hashMap (m.keys.getD (ringIdx m key % m.keys.length) 0)).getD []

/-- The multiset of points a list of peers contributes. -/
def allPoints (hash : HashF) (replicas : Nat) (peers : List Str) : List Nat :=
  (peers.map (ringPoints hash replicas)).flatten

example : ringGet (ringNew 3 (fun d => d.sum)) [5] = [] := by decide

example :
    (ringAdd (ringNew 2 (fun d => d.sum)) [[7], [9]]).keys = [55, 56, 57, 58] := by decide

example : ringGet (ringAdd (ringNew 2 (fun d => d.sum)) [[7], [9]]) [8] = [7] := by decide

/-! ### Ring lemmas -/

/-- Correctness of the sort.Search loop for monotone predicates: the result
is the least index of the interval at which the predicate holds. -/
theorem searchGo_spec (pred : Nat → Bool) (N : Nat)
    (mono : ∀ a b, a ≤ b → b < N → pred a = true → pred b = true) :
    ∀ fuel i j, i ≤ j → j ≤ N → j - i ≤ fuel →
      i ≤ searchGo pred fuel i j ∧ searchGo pred fuel i j ≤ j ∧
      (∀ t, i ≤ t → t < searchGo pred fuel i j → pred t = false) ∧
      (∀ t, searchGo pred fuel i j ≤ t → t < j → pred t = true) := by
  intro fuel
  induction fuel with
  | zero =>
    intro i j hij hjN hf
    have hji : i = j := by omega
    subst hji
    simp only [searchGo]
    refine ⟨le_rfl, le_rfl, ?_, ?_⟩ <;> intro t ht1 ht2 <;> omega
  | succ fuel ih =>
    intro i j hij hjN hf
    by_cases hlt : i < j
    · have hmid1 : i ≤ (i + j) / 2 := by omega
      have hmid2 : (i + j) / 2 < j := by omega
      by_cases hp : pred ((i + j) / 2) = true
      · have heq : searchGo pred (fuel + 1) i j = searchGo pred fuel i ((i + j) / 2) := by
          simp only [searchGo, if_pos hlt, hp, if_true]
        obtain ⟨h1, h2, h3, h4⟩ := ih i ((i + j) / 2) hmid1 (by omega) (by omega)
        rw [heq]
        refine ⟨h1, by omega, h3, ?_⟩
        intro t ht1 ht2
        by_cases htm : t < (i + j) / 2
        · exact h4 t ht1 htm
        · exact mono ((i + j) / 2) t (by omega) (by omega) hp
      · have hp' : pred ((i + j) / 2) = false := by
          cases hpv : pred ((i + j) / 2)
          · rfl
          · exact absurd hpv hp
        have heq : searchGo pred (fuel + 1) i j = searchGo pred fuel ((i + j) / 2 + 1) j := by
          simp only [searchGo, if_pos hlt, hp', Bool.false_eq_true, if_false]
        obtain ⟨h1, h2, h3, h4⟩ := ih ((i + j) / 2 + 1) j (by omega) hjN (by omega)
        rw [heq]
        refine ⟨by omega, h2, ?_, h4⟩
        intro t ht1 ht2
        by_cases htm : (i + j) / 2 + 1 ≤ t
        · exact h3 t htm ht2
        · cases hpt : pred t
          · rfl
          · exact absurd (mono t ((i + j) / 2) (by omega) (by omega) hpt) (by simp [hp'])
    · have hji : i = j := by omega
      subst hji
      simp only [searchGo, if_neg hlt]
      refine ⟨le_rfl, le_rfl, ?_, ?_⟩ <;> intro t ht1 ht2 <;> omega

theorem foldl_addOne_hash (ps : List Str) : ∀ m : RingMap,
    (ps.foldl ringAddOne m).hash = m.hash := by
  induction ps with
  | nil => intro m; rfl
  | cons P ps ih => intro m; simpa using ih (ringAddOne m P)

theorem foldl_addOne_replicas (ps : List Str) : ∀ m : RingMap,
    (ps.foldl ringAddOne m).replicas = m.replicas := by
  induction ps with
  | nil => intro m; rfl
  | cons P ps ih => intro m; simpa using ih (ringAddOne m P)

theorem foldl_addOne_keys (ps : List Str) : ∀ m : RingMap,
    (ps.foldl ringAddOne m).keys = m.keys ++ allPoints m.hash m.replicas ps := by
  induction ps with
  | nil => intro m; simp [allPoints]
  | cons P ps ih =>
    intro m
    simp only [List.foldl_cons]
    rw [ih (ringAddOne m P)]
    simp [ringAddOne, allPoints, List.append_assoc]

/-- Every recorded point is mapped to one of the given peers. -/
def ringCovered (peers : List Str) (m : RingMap) : Prop :=
  ∀ p ∈ m.keys, ∃ P ∈ peers, m.hashMap p = some P

theorem ringAddOne_covered (peers : List Str) (m : RingMap) (key : Str)
    (hm : ringCovered peers m) (hkey : key ∈ peers) :
    ringCovered peers (ringAddOne m key) := by
  intro p hp
  simp only [ringAddOne, List.mem_append] at hp
  by_cases hmem : p ∈ ringPoints m.hash m.replicas key
  · exact ⟨key, hkey, by simp [ringAddOne, hmem]⟩
  · have hp' : p ∈ m.keys := by
      rcases hp with h | h
      · exact h
      · exact absurd h hmem
    obtain ⟨P, hP, hmap⟩ := hm p hp'
    exact ⟨P, hP, by simp [ringAddOne, hmem, hmap]⟩

theorem foldl_addOne_covered (peers : List Str) : ∀ (ps : List Str) (m : RingMap),
    (∀ Q ∈ ps, Q ∈ peers) → ringCovered peers m →
    ringCovered peers (ps.foldl ringAddOne m) := by
  intro ps
  induction ps with
  | nil => intro m _ hm; exact hm
  | cons Q rest ih =>
    intro m hsub hm
    simp only [List.foldl_cons]
    exact ih (ringAddOne m Q)
      (fun Q' hQ' => hsub Q' (List.mem_cons_of_mem _ hQ'))
      (ringAddOne_covered peers m Q hm (hsub Q (List.mem_cons_self _ _)))

theorem ringAdd_hashMap (m : RingMap) (peers : List Str) :
    (ringAdd m peers).hashMap = (peers.foldl ringAddOne m).hashMap := rfl

theorem ringAdd_hash (m : RingMap) (peers : List Str) :
    (ringAdd m peers).hash = m.hash := foldl_addOne_hash peers m

theorem ringAdd_keys (R : Nat) (hash : HashF) (peers : List Str) :
    (ringAdd (ringNew R hash) peers).keys = sortNats (allPoints hash R peers) := by
  unfold ringAdd
  simp only
  rw [foldl_addOne_keys peers (ringNew R hash)]
  rfl

theorem ringAdd_covered (R : Nat) (hash : HashF) (peers : List Str) :
    ringCovered peers (ringAdd (ringNew R hash) peers) := by
  intro p hp
  rw [ringAdd_keys] at hp
  have hp' : p ∈ (peers.foldl ringAddOne (ringNew R hash)).keys := by
    rw [foldl_addOne_keys peers (ringNew R hash)]
    have := (List.perm_insertionSort (fun a b => a ≤ b) (allPoints hash R peers)).mem_iff.mp hp
    simpa [ringNew] using this
  rw [ringAdd_hashMap]
  exact foldl_addOne_covered peers peers (ringNew R hash) (fun Q h => h)
    (by intro q hq; simp [ringNew] at hq) p hp'

theorem ringAdd_keys_perm (R : Nat) (hash : HashF) (peers : List Str) :
    ((ringAdd (ringNew R hash) peers).keys).Perm (allPoints hash R peers) := by
  rw [ringAdd_keys]
  exact List.perm_insertionSort _ _

theorem ringAdd_keys_sorted (R : Nat) (hash : HashF) (peers : List Str) :
    List.Sorted (· ≤ ·) (ringAdd (ringNew R hash) peers).keys := by
  rw [ringAdd_keys]
  exact List.sorted_insertionSort _ _

theorem allPoints_length (hash : HashF) (R : Nat) (peers : List Str) :
    (allPoints hash R peers).length = R * peers.length := by
  unfold allPoints
  rw [List.length_flatten]
  induction peers with
  | nil => simp
  | cons P ps ih =>
    simp only [List.map_cons, List.map_map, List.sum_cons]
    simp only [List.map_map] at ih
    rw [ih]
    simp [ringPoints, Nat.mul_succ, Nat.add_comm]

/-- Lookup after adding a list of peers: a point written only by peer P (up
to collisions among P's own labels) maps to P. -/
theorem foldl_addOne_lookup (P : Str) (p : Nat) : ∀ (ps : List Str) (m : RingMap),
    (∀ Q ∈ ps, ∀ j < m.replicas, ringPoint m.hash j Q = p → Q = P) →
    (m.hashMap p = some P ∨ (P ∈ ps ∧ ∃ i < m.replicas, p = ringPoint m.hash i P)) →
    (ps.foldl ringAddOne m).hashMap p = some P := by
  intro ps
  induction ps with
  | nil =>
    intro m hcov hbase
    rcases hbase with h | ⟨h, -⟩
    · exact h
    · simp at h
  | cons Q rest ih =>
    intro m hcov hbase
    simp only [List.foldl_cons]
    by_cases hmem : p ∈ ringPoints m.hash m.replicas Q
    · have hQP : Q = P := by
        obtain ⟨j, hj, hpj⟩ : ∃ j < m.replicas, ringPoint m.hash j Q = p := by
          simpa [ringPoints, List.mem_map, List.mem_range] using hmem
        exact hcov Q (List.mem_cons_self _ _) j hj hpj
      refine ih (ringAddOne m Q)
        (fun Q' hQ' j hj hpj => hcov Q' (List.mem_cons_of_mem _ hQ') j hj hpj)
        (Or.inl ?_)
      subst hQP
      simp [ringAddOne, hmem]
    · refine ih (ringAddOne m Q)
        (fun Q' hQ' j hj hpj => hcov Q' (List.mem_cons_of_mem _ hQ') j hj hpj) ?_
      rcases hbase with h | ⟨hP, i, hi, hpi⟩
      · exact Or.inl (by simp [ringAddOne, hmem, h])
      · rcases List.mem_cons.mp hP with rfl | hPrest
        · exact absurd (by
            simp only [ringPoints, List.mem_map, List.mem_range]
            exact ⟨i, hi, hpi.symm⟩) hmem
        · exact Or.inr ⟨hPrest, i, hi, hpi⟩

/-- In a sorted list, positional indexing with a default is monotone inside
the list. -/
theorem sorted_getD_mono (l : List Nat) (h : List.Sorted (· ≤ ·) l) (a b : Nat)
    (hab : a ≤ b) (hb : b < l.length) : l.getD a 0 ≤ l.getD b 0 := by
  have ha : a < l.length := lt_of_le_of_lt hab hb
  rw [List.getD_eq_getElem l 0 ha, List.getD_eq_getElem l 0 hb]
  rcases Nat.lt_or_ge a b with h1 | h1
  · exact List.pairwise_iff_get.mp h ⟨a, ha⟩ ⟨b, hb⟩ h1
  · have hab2 : a = b := by omega
    subst hab2; rfl

/-- On a ring built by Add whose point sequence is nonempty, Get returns one
of the added peers. -/
theorem ringGet_mem_of_keys_ne (hash : HashF) (R : Nat) (peers : List Str) (key : Str)
    (hkne : (ringAdd (ringNew R hash) peers).keys ≠ []) :
    ringGet (ringAdd (ringNew R hash) peers) key ∈ peers := by
  have hpos : 0 < (ringAdd (ringNew R hash) peers).keys.length :=
    List.length_pos.mpr hkne
  have hmod : ringIdx (ringAdd (ringNew R hash) peers) key %
      (ringAdd (ringNew R hash) peers).keys.length <
      (ringAdd (ringNew R hash) peers).keys.length := Nat.mod_lt _ hpos
  have hmem : (ringAdd (ringNew R hash) peers).keys.getD
      (ringIdx (ringAdd (ringNew R hash) peers) key %
        (ringAdd (ringNew R hash) peers).keys.length) 0
      ∈ (ringAdd (ringNew R hash) peers).keys := by
    rw [List.getD_eq_getElem _ 0 hmod]
    exact List.getElem_mem hmod
  obtain ⟨P, hP, hmap⟩ := ringAdd_covered R hash peers _ hmem
  unfold ringGet
  rw [if_neg hkne, hmap]
  simpa using hP

/-- On a nonempty ring built by Add, Get returns one of the added peers. -/
theorem ringGet_mem (hash : HashF) (R : Nat) (peers : List Str) (key : Str)
    (hR : 1 ≤ R) (hne : peers ≠ []) :
    ringGet (ringAdd (ringNew R hash) peers) key ∈ peers := by
  have hlen : (ringAdd (ringNew R hash) peers).keys.length = R * peers.length :=
    (ringAdd_keys_perm R hash peers).length_eq.trans (allPoints_length hash R peers)
  have hpos : 0 < (ringAdd (ringNew R hash) peers).keys.length := by
    rw [hlen]
    have : 0 < peers.length := List.length_pos.mpr hne
    exact Nat.mul_pos hR this
  have hkne : (ringAdd (ringNew R hash) peers).keys ≠ [] := by
    intro h; rw [h] at hpos; simp at hpos
  exact ringGet_mem_of_keys_ne hash R peers key hkne

/-- C7 counterexample: with replica multiplier 0, Add(peer) creates no ring
points, so Get returns the empty identifier even though a peer was added; the
empty identifier is not an added peer. -/
theorem ring_get_added_peer_cex :
    ringGet (ringAdd (ringNew 0 (fun _ => 0)) [[97]]) [107] = [] ∧
    ([] : Str) ∉ ([[97]] : List Str) := by
  decide

/-- C7 amended (the claim holds once the replica multiplier is at least 1):
Get on an empty ring returns the empty identifier without panicking; on a
ring built from a nonempty peer list, Get returns one of the added peers,
namely the peer recorded at the smallest ring point at or above the key's
hash, wrapping to index 0 when no such point exists; and Get does not modify
the ring, so repeated calls on the same state agree by purity. -/
theorem ring_get_owner_props (hash : HashF) (R : Nat) (peers : List Str) (key : Str)
    (hR : 1 ≤ R) :
    (∀ m : RingMap, m.keys = [] → ringGet m key = []) ∧
    (peers ≠ [] → ringGet (ringAdd (ringNew R hash) peers) key ∈ peers) ∧
    (peers ≠ [] →
      ringIdx (ringAdd (ringNew R hash) peers) key
          ≤ (ringAdd (ringNew R hash) peers).keys.length ∧
      (∀ t, t < ringIdx (ringAdd (ringNew R hash) peers) key →
        (ringAdd (ringNew R hash) peers).keys.getD t 0 < u32 hash key) ∧
      (ringIdx (ringAdd (ringNew R hash) peers) key
          < (ringAdd (ringNew R hash) peers).keys.length →
        u32 hash key ≤ (ringAdd (ringNew R hash) peers).keys.getD
          (ringIdx (ringAdd (ringNew R hash) peers) key) 0) ∧
      ringGet (ringAdd (ringNew R hash) peers) key =
        ((ringAdd (ringNew R hash) peers).hashMap
          ((ringAdd (ringNew R hash) peers).keys.getD
            (ringIdx (ringAdd (ringNew R hash) peers) key %
              (ringAdd (ringNew R hash) peers).keys.length) 0)).getD []) := by
  refine ⟨?_, fun hne => ringGet_mem hash R peers key hR hne, ?_⟩
  · intro m h
    unfold ringGet
    rw [if_pos h]
  · intro hne
    have hh : (ringAdd (ringNew R hash) peers).hash = hash := ringAdd_hash _ _
    have hsorted := ringAdd_keys_sorted R hash peers
    have hidx : ringIdx (ringAdd (ringNew R hash) peers) key =
        sortSearch (ringAdd (ringNew R hash) peers).keys.length
          (fun i => decide (u32 hash key ≤ (ringAdd (ringNew R hash) peers).keys.getD i 0)) := by
      unfold ringIdx
      rw [hh]
    have hmono : ∀ a b, a ≤ b → b < (ringAdd (ringNew R hash) peers).keys.length →
        (fun i => decide (u32 hash key ≤ (ringAdd (ringNew R hash) peers).keys.getD i 0)) a = true →
        (fun i => decide (u32 hash key ≤ (ringAdd (ringNew R hash) peers).keys.getD i 0)) b = true := by
      intro a b hab hb ha
      simp only [decide_eq_true_eq] at ha ⊢
      exact le_trans ha (sorted_getD_mono _ hsorted a b hab hb)
    obtain ⟨h1, h2, h3, h4⟩ := searchGo_spec _ _ hmono
      (ringAdd (ringNew R hash) peers).keys.length 0
      (ringAdd (ringNew R hash) peers).keys.length
      (Nat.zero_le _) le_rfl (by omega)
    have hlen : (ringAdd (ringNew R hash) peers).keys.length = R * peers.length :=
      (ringAdd_keys_perm R hash peers).length_eq.trans (allPoints_length hash R peers)
    have hpos : 0 < (ringAdd (ringNew R hash) peers).keys.length := by
      rw [hlen]
      exact Nat.mul_pos hR (List.length_pos.mpr hne)
    have hkne : (ringAdd (ringNew R hash) peers).keys ≠ [] := by
      intro h; rw [h] at hpos; simp at hpos
    refine ⟨?_, ?_, ?_, ?_⟩
    · rw [hidx]; exact h2
    · intro t ht
      rw [hidx] at ht
      have := h3 t (Nat.zero_le t) ht
      simp only [decide_eq_true_eq] at this
      have := of_decide_eq_false this
      omega
    · intro hlt
      rw [hidx] at hlt ⊢
      have := h4 _ le_rfl hlt
      simpa using this
    · unfold ringGet
      rw [if_neg hkne]

/-- Witness for ring_get_owner_props at concrete inputs. -/
theorem ring_get_owner_props_witness :
    ringGet (ringNew 2 (fun d => d.sum)) [8] = [] ∧
    ringGet (ringAdd (ringNew 2 (fun d => d.sum)) [[7], [9]]) [8] ∈ ([[7], [9]] : List Str) := by
  refine ⟨?_, ?_⟩
  · exact (ring_get_owner_props (fun d => d.sum) 2 [[7], [9]] [8] (by decide)).1 _ rfl
  · exact (ring_get_owner_props (fun d => d.sum) 2 [[7], [9]] [8] (by decide)).2.1 (by decide)

/-- C8: Add for peers P creates exactly R points per peer, the i-th being the
hash of the decimal rendering of i concatenated with P reduced to uint32; the
point sequence is the sorted rearrangement of exactly those points; and when
the virtual-node labels of distinct peers do not collide, each point maps to
its own peer. -/
theorem ring_add_structure (hash : HashF) (R : Nat) (peers : List Str) :
    ((ringAdd (ringNew R hash) peers).keys).Perm (allPoints hash R peers) ∧
    (ringAdd (ringNew R hash) peers).keys.length = R * peers.length ∧
    List.Sorted (· ≤ ·) (ringAdd (ringNew R hash) peers).keys ∧
    ((∀ P ∈ peers, ∀ i < R, ∀ Q ∈ peers, ∀ j < R,
        ringPoint hash j Q = ringPoint hash i P → Q = P) →
      ∀ P ∈ peers, ∀ i < R,
        (ringAdd (ringNew R hash) peers).hashMap (ringPoint hash i P) = some P) := by
  refine ⟨ringAdd_keys_perm R hash peers,
    (ringAdd_keys_perm R hash peers).length_eq.trans (allPoints_length hash R peers),
    ringAdd_keys_sorted R hash peers, ?_⟩
  intro hinj P hP i hi
  rw [ringAdd_hashMap]
  refine foldl_addOne_lookup P (ringPoint hash i P) peers (ringNew R hash) ?_
    (Or.inr ⟨hP, i, hi, rfl⟩)
  intro Q hQ j hj hpj
  exact hinj P hP i hi Q hQ j hj hpj

/-- Witness for ring_add_structure at concrete inputs (distinct labels). -/
theorem ring_add_structure_witness :
    (ringAdd (ringNew 2 (fun d => d.sum)) [[7], [9]]).hashMap
      (ringPoint (fun d => d.sum) 0 [7]) = some [7] :=
  (ring_add_structure (fun d => d.sum) 2 [[7], [9]]).2.2.2 (by decide) [7]
    (by decide) 0 (by decide)

/-! ### Cache shell and group read-through
(src/proto-buf/geecache/cache.go, byteview.go, geecache.go)

ByteView payloads are byte strings; cloneBytes copies the buffer, which in a
pure model is the identity on the value.  Errors are byte-string messages. -/

abbrev Err := Str

/-- byteview.cloneBytes: a fresh copy, value-equal to the input. -/
def cloneBytes (b : Str) : Str := b

/-- ASCII bytes of a literal, for concrete strings such as error texts. -/
def strBytes (s : String) : Str := s.toList.map Char.toNat

/-- The mutex-guarded cache shell: lazily created LRU store plus capacity. -/
structure CacheShell where
  cacheBytes : Int
  lru : Option LruCache

/-- cache.add: create the LRU store on first write, then Add. -/
def shellAdd (s : CacheShell) (k v : Str) : Option CacheShell :=
  (lruAdd (match s.lru with | none => lruNew s.cacheBytes | some l => l) k v).map
    (fun l => { s with lru := some l })

/-- cache.get: not-found without allocating on a never-written shell. -/
def shellGet (s : CacheShell) (k : Str) : Option Str × CacheShell :=
  match s.lru with
  | none => (none, s)
  | some l => ((lruGet l k).1, { s with lru := some (lruGet l k).2 })

/-- Group state for a single Get(key) evaluation.  The pick field is the
combined outcome of the peer-routing step for this key: none models either
no registered PeerPicker or PickPeer returning not-found; some r models a
picked remote peer whose fetch produced r (Group.getFromPeer wraps the
transport result).  getter is the backing loader. -/
structure GroupModel where
  cache : CacheShell
  pick : Option (Except Err Str)
  getter : Str → Except Err Str

/-- Group.getLocally: run the loader; on success wrap the cloned bytes and
populate the cache before returning.  none models a diverging cache insert
(negative capacity only). -/
def getLocallyM (g : GroupModel) (key : Str) : Option (GroupModel × Except Err Str) :=
  match g.getter key with
  | .error e => some (g, .error e)
  | .ok bytes =>
    (shellAdd g.cache key (cloneBytes bytes)).map
      (fun c => ({ g with cache := c }, .ok (cloneBytes bytes)))

/-- The body of Group.load (the function passed to the single-flight Do;
this is the sequential result, coalescing itself is the SF model below):
try the picked remote peer, fall back to getLocally on no peer or on a peer
error.  A remote success is returned without touching the cache. -/
def loadM (g : GroupModel) (key : Str) : Option (GroupModel × Except Err Str) :=
  match g.pick with
  | some (.ok bytes) => some (g, .ok bytes)
  | some (.error _) => getLocallyM g key
  | none => getLocallyM g key

/-- Group.Get: reject the empty key, consult the cache shell, load on miss. -/
def groupGetM (g : GroupModel) (key : Str) : Option (GroupModel × Except Err Str) :=
  if key = [] then some (g, .error (strBytes "key is required"))
  else
    match shellGet g.cache key with
    | (some v, c') => some ({ g with cache := c' }, .ok v)
    | (none, c') => loadM { g with cache := c' } key

/-- C5: when the picked peer's fetch failed, load is exactly the local
loader path, so the caller receives the loader's value or the loader's
error, never the peer's error; and the group-level miss path reduces to the
same local path. -/
theorem group_load_peer_error_fallback (g : GroupModel) (key : Str) (e : Err)
    (hp : g.pick = some (.error e)) :
    loadM g key = getLocallyM g key ∧
    (∀ g' r, loadM g key = some (g', r) →
      (∃ bytes, g.getter key = .ok bytes ∧ r = .ok bytes) ∨
      (∃ le, g.getter key = .error le ∧ r = .error le)) ∧
    (key ≠ [] → (shellGet g.cache key).1 = none →
      groupGetM g key = getLocallyM { g with cache := (shellGet g.cache key).2 } key) := by
  have h1 : loadM g key = getLocallyM g key := by
    unfold loadM
    rw [hp]
  refine ⟨h1, ?_, ?_⟩
  · intro g' r h
    rw [h1] at h
    unfold getLocallyM at h
    cases hg : g.getter key with
    | error le =>
      simp only [hg, Option.some.injEq, Prod.mk.injEq] at h
      exact Or.inr ⟨le, rfl, h.2.symm⟩
    | ok bytes =>
      simp only [hg] at h
      cases hs : shellAdd g.cache key (cloneBytes bytes) with
      | none => simp [hs] at h
      | some c =>
        rw [hs] at h
        simp only [Option.map_some', Option.some.injEq, Prod.mk.injEq] at h
        exact Or.inl ⟨bytes, rfl, h.2.symm⟩
  · intro hk hmiss
    unfold groupGetM
    rw [if_neg hk]
    rcases hsg : shellGet g.cache key with ⟨r, c'⟩
    rw [hsg] at hmiss
    simp only at hmiss
    subst hmiss
    simp only [hsg]
    unfold loadM
    simp only [hp]

/-- Witness for group_load_peer_error_fallback at a concrete group state. -/
theorem group_load_peer_error_fallback_witness :
    loadM ⟨⟨10, none⟩, some (.error [1]), fun _ => .ok [5, 6]⟩ [2]
      = getLocallyM ⟨⟨10, none⟩, some (.error [1]), fun _ => .ok [5, 6]⟩ [2] :=
  (group_load_peer_error_fallback ⟨⟨10, none⟩, some (.error [1]), fun _ => .ok [5, 6]⟩
    [2] [1] rfl).1

/-- C6: a miss served by a successful remote peer fetch leaves the whole
group state, in particular the local cache, unchanged (no populate); a miss
served by the backing loader returns the state with the loaded value
inserted into the local cache. -/
theorem group_load_remote_no_populate (g : GroupModel) (key : Str) :
    (∀ bytes, g.pick = some (.ok bytes) → loadM g key = some (g, .ok bytes)) ∧
    ((g.pick = none ∨ ∃ e, g.pick = some (.error e)) →
      ∀ bytes, g.getter key = .ok bytes →
        loadM g key = (shellAdd g.cache key bytes).map
          (fun c => ({ g with cache := c }, .ok bytes))) := by
  constructor
  · intro bytes hp
    unfold loadM
    rw [hp]
  · intro hp bytes hg
    have hl : loadM g key = getLocallyM g key := by
      unfold loadM
      rcases hp with hp | ⟨e, hp⟩ <;> rw [hp]
    rw [hl]
    unfold getLocallyM
    rw [hg]
    rfl

/-- Witness for group_load_remote_no_populate at concrete group states. -/
theorem group_load_remote_no_populate_witness :
    loadM ⟨⟨10, none⟩, some (.ok [9]), fun _ => .ok [5]⟩ [2]
      = some (⟨⟨10, none⟩, some (.ok [9]), fun _ => .ok [5]⟩, .ok [9]) ∧
    loadM ⟨⟨10, none⟩, none, fun _ => .ok [5]⟩ [2]
      = (shellAdd ⟨10, none⟩ [2] [5]).map
          (fun c => (⟨c, none, fun _ => .ok [5]⟩, .ok [5])) := by
  refine ⟨?_, ?_⟩
  · exact (group_load_remote_no_populate ⟨⟨10, none⟩, some (.ok [9]), fun _ => .ok [5]⟩ [2]).1
      [9] rfl
  · exact (group_load_remote_no_populate ⟨⟨10, none⟩, none, fun _ => .ok [5]⟩ [2]).2
      (Or.inl rfl) [5] rfl

/-! ### Group registry (src/proto-buf/geecache/geecache.go, NewGroup / GetGroup)

The registry is the package-level groups map guarded by the RW mutex; a
group is identified here by the fields NewGroup stores that matter for the
registry semantics. -/

structure RGroup where
  name : String
  cacheBytes : Int
  getter : Str → Except Err Str

abbrev Registry := String → Option RGroup

/-- NewGroup: panic (error) on a nil Getter, otherwise build the group and
store it under its name, overwriting any previous registration. -/
def newGroup (reg : Registry) (name : String) (cacheBytes : Int)
    (getter : Option (Str → Except Err Str)) : Except Unit (Registry × RGroup) :=
  match getter with
  | none => .error ()
  | some f =>
    .ok (fun n => if n = name then some ⟨name, cacheBytes, f⟩ else reg n,
      ⟨name, cacheBytes, f⟩)

/-- GetGroup: plain registry lookup. -/
def getGroup (reg : Registry) (name : String) : Option RGroup := reg name

/-- C10: creating a group under an already-registered name succeeds, silently
replaces the registration, and later lookups of that name return the newest
group; other names are untouched. -/
theorem group_registry_replaces (reg : Registry) (n : String) (cb : Int)
    (f : Str → Except Err Str) :
    (∃ out, newGroup reg n cb (some f) = .ok out) ∧
    (∀ (reg' : Registry) (g' : RGroup), newGroup reg n cb (some f) = .ok (reg', g') →
      getGroup reg' n = some g' ∧ g' = ⟨n, cb, f⟩ ∧
      ∀ m, m ≠ n → getGroup reg' m = getGroup reg m) := by
  constructor
  · exact ⟨_, rfl⟩
  · intro reg' g' h
    unfold newGroup at h
    simp only [Except.ok.injEq, Prod.mk.injEq] at h
    obtain ⟨hr, hg⟩ := h
    subst hr
    subst hg
    refine ⟨by simp [getGroup], rfl, ?_⟩
    intro m hm
    simp [getGroup, hm]

def regW : Registry := fun _ => none

def fW : Str → Except Err Str := fun _ => .ok [7]

/-- Witness for group_registry_replaces at a concrete registry. -/
theorem group_registry_replaces_witness :
    getGroup (fun m => if m = "a" then some (⟨"a", 2, fW⟩ : RGroup) else regW m) "a"
      = some ⟨"a", 2, fW⟩ :=
  ((group_registry_replaces regW "a" 2 fW).2 _ _ rfl).1

/-! ### HTTP peer pool picker
(src/proto-buf/geecache/http.go, src/unnamed/part_008)

NewHTTPPool leaves the ring pointer and the getter map nil; Set installs a
fresh ring with 50 virtual nodes per peer (crc32.ChecksumIEEE abstracted as
the hash parameter) and one httpGetter per peer whose baseURL is
peer + basePath.  PickPeer on a pool whose ring pointer is still nil
dereferences the nil Map inside Get, which is a runtime panic. -/

def defaultBasePathB : Str := strBytes "/_geecache/"

def defaultReplicasN : Nat := 50

structure PoolModel where
  self : Str
  basePath : Str
  peers : Option RingMap
  httpGetters : Str → Option Str

def newHTTPPool (self : Str) : PoolModel :=
  ⟨self, defaultBasePathB, none, fun _ => none⟩

def poolSet (p : PoolModel) (hash : HashF) (ps : List Str) : PoolModel :=
  { p with
    peers := some (ringAdd (ringNew defaultReplicasN hash) ps)
    httpGetters := fun q => if q ∈ ps then some (q ++ p.basePath) else none }

/-- Outcome of HTTPPool.PickPeer: a runtime panic (nil ring), not-found, or
a found peer getter (identified by its baseURL; Go would return the map
lookup, nil if absent). -/
inductive PickOut where
  | panicked
  | notFound
  | found (getter : Option Str)
  deriving Repr, DecidableEq

def pickPeer (p : PoolModel) (key : Str) : PickOut :=
  match p.peers with
  | none => .panicked
  | some m =>
    if ringGet m key ≠ [] ∧ ringGet m key ≠ p.self then .found (p.httpGetters (ringGet m key))
    else .notFound

/-- C9 counterexample: on a freshly constructed pool on which Set was never
called, PickPeer dereferences the nil ring and panics instead of returning
not-found. -/
theorem pool_pick_fresh_cex :
    pickPeer (newHTTPPool (strBytes "http://a")) (strBytes "k") = .panicked ∧
    PickOut.panicked ≠ PickOut.notFound := by
  decide

/-- C9 amended (the claim holds for every pool on which Set has been called,
including Set with zero peers): with no peers configured PickPeer returns
not-found; any found result carries the getter of a configured peer distinct
from self; when the ring maps the key to the pool's own identifier PickPeer
returns not-found; PickPeer never panics after a Set; and when the ring maps
the key to a nonempty identifier different from self, that identifier is a
configured peer and PickPeer returns found with exactly that peer's getter. -/
theorem pool_pick_props (hash : HashF) (self key : Str) (ps : List Str) :
    (ps = [] → pickPeer (poolSet (newHTTPPool self) hash ps) key = .notFound) ∧
    (∀ g, pickPeer (poolSet (newHTTPPool self) hash ps) key = .found g →
      ∃ q ∈ ps, q ≠ self ∧ q ≠ [] ∧ g = some (q ++ defaultBasePathB)) ∧
    (ringGet (ringAdd (ringNew defaultReplicasN hash) ps) key = self →
      pickPeer (poolSet (newHTTPPool self) hash ps) key = .notFound) ∧
    pickPeer (poolSet (newHTTPPool self) hash ps) key ≠ .panicked ∧
    (∀ q, ringGet (ringAdd (ringNew defaultReplicasN hash) ps) key = q →
      q ≠ [] → q ≠ self →
      q ∈ ps ∧ pickPeer (poolSet (newHTTPPool self) hash ps) key
        = .found (some (q ++ defaultBasePathB))) := by
  refine ⟨?_, ?_, ?_, ?_, ?_⟩
  · intro hps
    subst hps
    have hkeys : (ringAdd (ringNew defaultReplicasN hash) []).keys = [] := by
      rw [ringAdd_keys]
      rfl
    have hget : ringGet (ringAdd (ringNew defaultReplicasN hash) []) key = [] := by
      unfold ringGet
      rw [if_pos hkeys]
    unfold pickPeer poolSet
    simp [newHTTPPool, hget]
  · intro g hg
    unfold pickPeer poolSet at hg
    simp only [newHTTPPool] at hg
    by_cases hc : ringGet (ringAdd (ringNew defaultReplicasN hash) ps) key ≠ [] ∧
        ringGet (ringAdd (ringNew defaultReplicasN hash) ps) key ≠ self
    · rw [if_pos hc] at hg
      have hne : ps ≠ [] := by
        intro hps
        subst hps
        have hkeys : (ringAdd (ringNew defaultReplicasN hash) []).keys = [] := by
          rw [ringAdd_keys]; rfl
        have : ringGet (ringAdd (ringNew defaultReplicasN hash) []) key = [] := by
          unfold ringGet; rw [if_pos hkeys]
        exact hc.1 this
      have hmem : ringGet (ringAdd (ringNew defaultReplicasN hash) ps) key ∈ ps :=
        ringGet_mem hash defaultReplicasN ps key (by norm_num [defaultReplicasN]) hne
      refine ⟨ringGet (ringAdd (ringNew defaultReplicasN hash) ps) key, hmem,
        hc.2, hc.1, ?_⟩
      simp only [PickOut.found.injEq] at hg
      rw [← hg, if_pos hmem]
    · rw [if_neg hc] at hg
      cases hg
  · intro hself
    unfold pickPeer poolSet
    simp [newHTTPPool, hself]
  · unfold pickPeer poolSet
    simp only [newHTTPPool]
    by_cases hc : ringGet (ringAdd (ringNew defaultReplicasN hash) ps) key ≠ [] ∧
        ringGet (ringAdd (ringNew defaultReplicasN hash) ps) key ≠ self
    · rw [if_pos hc]
      simp
    · rw [if_neg hc]
      simp
  · intro q hq hne hnself
    have hkne : (ringAdd (ringNew defaultReplicasN hash) ps).keys ≠ [] := by
      intro hk
      apply hne
      rw [← hq]
      unfold ringGet
      rw [if_pos hk]
    have hmem : q ∈ ps := by
      rw [← hq]
      exact ringGet_mem_of_keys_ne hash defaultReplicasN ps key hkne
    refine ⟨hmem, ?_⟩
    unfold pickPeer poolSet
    simp only [newHTTPPool]
    rw [hq, if_pos (⟨hne, hnself⟩ : q ≠ [] ∧ q ≠ self), if_pos hmem]

/-- Witness for pool_pick_props: a pool Set with no peers returns not-found,
and a pool Set with peers whose ring maps the key to a non-self peer returns
found with that peer's getter (with the constant hash all labels collide at
point 0, whose last writer is the peer added last). -/
theorem pool_pick_props_witness :
    pickPeer (poolSet (newHTTPPool [7]) (fun _ => 0) []) [8] = .notFound ∧
    pickPeer (poolSet (newHTTPPool [7]) (fun _ => 0) [[7], [9]]) [8]
      = .found (some ([9] ++ defaultBasePathB)) := by
  refine ⟨(pool_pick_props (fun _ => 0) [7] [8] []).1 rfl, ?_⟩
  exact ((pool_pick_props (fun _ => 0) [7] [8] [[7], [9]]).2.2.2.2 [9]
    (by decide) (by decide) (by decide)).2

/-! ### Single-flight coalescer (src/single-flight/singleflight/singleflight.go)

Operational model of Do(key, fn) for one key under arbitrary interleaving.
Each caller thread executes the body of Do as a sequence of atomic steps:

  - the first mutex section (check the map, either attach to the in-flight
    call or create a new record and store it) is one atomic step;
  - running fn, writing c.val/c.err and wg.Done is one atomic step (only the
    runner touches the record before Done, and the WaitGroup provides the
    happens-before edge from that write to every waiter's read);
  - the second mutex section (delete the record, unconditionally) is one
    step, after which the runner returns c.val, c.err;
  - a waiter returns c.val, c.err once the record is published.

The state carries ghost data never read by the code: the registry of all
call records ever created (the code's record is the one the slot points to),
the creating thread and its fn result inside each record, and a per-record
invocation counter.  fnOf t is the (value, error) pair thread t's fn would
return; invoking fn is observable through invCount. -/

inductive TState (R : Type) where
  | start (fr : R)
  | waiting (c : Nat)
  | running (c : Nat) (fr : R)
  | finishing (c : Nat)
  | done (c : Nat) (r : R)

structure CallInfo (R : Type) where
  owner : Nat
  fnres : R
  published : Bool

structure SFState (R : Type) where
  slot : Option Nat
  calls : Nat → Option (CallInfo R)
  next : Nat
  invCount : Nat → Nat
  threads : Nat → TState R

/-- All callers poised to enter Do; no record in flight. -/
def sfInit {R : Type} (fnOf : Nat → R) : SFState R :=
  ⟨none, fun _ => none, 0, fun _ => 0, fun t => .start (fnOf t)⟩

inductive SFStep {R : Type} : SFState R → SFState R → Prop where
  | joinCall (s : SFState R) (t c : Nat) (fr : R)
      (ht : s.threads t = .start fr) (hs : s.slot = some c) :
      SFStep s { s with threads := Function.update s.threads t (.waiting c) }
  | createCall (s : SFState R) (t : Nat) (fr : R)
      (ht : s.threads t = .start fr) (hs : s.slot = none) :
      SFStep s { s with
        slot := some s.next
        calls := Function.update s.calls s.next (some ⟨t, fr, false⟩)
        next := s.next + 1
        threads := Function.update s.threads t (.running s.next fr) }
  | invokeFn (s : SFState R) (t c : Nat) (fr : R)
      (ht : s.threads t = .running c fr) :
      SFStep s { s with
        calls := Function.update s.calls c (some ⟨t, fr, true⟩)
        invCount := Function.update s.invCount c (s.invCount c + 1)
        threads := Function.update s.threads t (.finishing c) }
  | forgetCall (s : SFState R) (t c : Nat) (info : CallInfo R)
      (ht : s.threads t = .finishing c) (hc : s.calls c = some info) :
      SFStep s { s with
        slot := none
        threads := Function.update s.threads t (.done c info.fnres) }
  | waitReturn (s : SFState R) (t c : Nat) (info : CallInfo R)
      (ht : s.threads t = .waiting c) (hc : s.calls c = some info)
      (hp : info.published = true) :
      SFStep s { s with threads := Function.update s.threads t (.done c info.fnres) }

/-- States reachable from the initial state by interleaved Do executions. -/
def SFReach {R : Type} (fnOf : Nat → R) (s : SFState R) : Prop :=
  Relation.ReflTransGen SFStep (sfInit fnOf) s

/-- The inductive invariant of the coalescer. -/
structure SFInv {R : Type} (fnOf : Nat → R) (s : SFState R) : Prop where
  start_fr : ∀ t fr, s.threads t = .start fr → fr = fnOf t
  run_rec : ∀ t c fr, s.threads t = .running c fr →
    s.calls c = some ⟨t, fr, false⟩ ∧ s.slot = some c ∧ fr = fnOf t
  fin_rec : ∀ t c, s.threads t = .finishing c →
    s.calls c = some ⟨t, fnOf t, true⟩ ∧ s.slot = some c
  calls_lt : ∀ c info, s.calls c = some info → c < s.next
  calls_fr : ∀ c info, s.calls c = some info → info.fnres = fnOf info.owner
  slot_rec : ∀ c, s.slot = some c → ∃ info, s.calls c = some info
  wait_rec : ∀ t c, s.threads t = .waiting c → ∃ info, s.calls c = some info
  done_rec : ∀ t c r, s.threads t = .done c r →
    ∃ info, s.calls c = some info ∧ info.published = true ∧ r = info.fnres
  fresh : ∀ c, s.next ≤ c → s.calls c = none ∧ s.invCount c = 0
  inv_pub : ∀ c info, s.calls c = some info →
    s.invCount c = (if info.published then 1 else 0)

theorem sfInv_init {R : Type} (fnOf : Nat → R) : SFInv fnOf (sfInit fnOf) := by
  refine ⟨?_, ?_, ?_, ?_, ?_, ?_, ?_, ?_, ?_, ?_⟩ <;>
    intro t <;> simp_all [sfInit]

theorem sfInv_step {R : Type} (fnOf : Nat → R) (s s' : SFState R)
    (inv : SFInv fnOf s) (hstep : SFStep s s') : SFInv fnOf s' := by
  cases hstep with
  | joinCall t0 c0 fr0 ht hs =>
    refine ⟨?_, ?_, ?_, inv.calls_lt, inv.calls_fr, inv.slot_rec, ?_, ?_, inv.fresh, inv.inv_pub⟩
    · intro t fr htt
      simp only [Function.update_apply] at htt
      rcases eq_or_ne t t0 with rfl | he
      · rw [if_pos rfl] at htt; cases htt
      · rw [if_neg he] at htt; exact inv.start_fr t fr htt
    · intro t c fr htt
      simp only [Function.update_apply] at htt
      rcases eq_or_ne t t0 with rfl | he
      · rw [if_pos rfl] at htt; cases htt
      · rw [if_neg he] at htt; exact inv.run_rec t c fr htt
    · intro t c htt
      simp only [Function.update_apply] at htt
      rcases eq_or_ne t t0 with rfl | he
      · rw [if_pos rfl] at htt; cases htt
      · rw [if_neg he] at htt; exact inv.fin_rec t c htt
    · intro t c htt
      simp only [Function.update_apply] at htt
      rcases eq_or_ne t t0 with rfl | he
      · rw [if_pos rfl] at htt
        injection htt with hcc
        subst hcc
        exact inv.slot_rec c0 hs
      · rw [if_neg he] at htt; exact inv.wait_rec t c htt
    · intro t c r htt
      simp only [Function.update_apply] at htt
      rcases eq_or_ne t t0 with rfl | he
      · rw [if_pos rfl] at htt; cases htt
      · rw [if_neg he] at htt; exact inv.done_rec t c r htt
  | createCall t0 fr0 ht hs =>
    have hfr0 : fr0 = fnOf t0 := inv.start_fr t0 fr0 ht
    have hfresh := inv.fresh s.next le_rfl
    refine ⟨?_, ?_, ?_, ?_, ?_, ?_, ?_, ?_, ?_, ?_⟩
    · intro t fr htt
      simp only [Function.update_apply] at htt
      rcases eq_or_ne t t0 with rfl | he
      · rw [if_pos rfl] at htt; cases htt
      · rw [if_neg he] at htt; exact inv.start_fr t fr htt
    · intro t c fr htt
      simp only [Function.update_apply] at htt
      rcases eq_or_ne t t0 with rfl | he
      · rw [if_pos rfl] at htt
        injection htt with hc hfr
        subst hc; subst hfr
        exact ⟨Function.update_same _ _ _, rfl, hfr0⟩
      · rw [if_neg he] at htt
        have h2 := (inv.run_rec t c fr htt).2.1
        rw [hs] at h2; cases h2
    · intro t c htt
      simp only [Function.update_apply] at htt
      rcases eq_or_ne t t0 with rfl | he
      · rw [if_pos rfl] at htt; cases htt
      · rw [if_neg he] at htt
        have h2 := (inv.fin_rec t c htt).2
        rw [hs] at h2; cases h2
    · intro c info hcc
      simp only [Function.update_apply] at hcc
      dsimp only
      rcases eq_or_ne c s.next with rfl | he
      · omega
      · rw [if_neg he] at hcc
        have := inv.calls_lt c info hcc
        omega
    · intro c info hcc
      simp only [Function.update_apply] at hcc
      rcases eq_or_ne c s.next with rfl | he
      · rw [if_pos rfl] at hcc
        injection hcc with hinfo
        subst hinfo
        simpa using hfr0
      · rw [if_neg he] at hcc
        exact inv.calls_fr c info hcc
    · intro c hcs
      simp only at hcs
      injection hcs with hcc
      subst hcc
      exact ⟨⟨t0, fr0, false⟩, Function.update_same _ _ _⟩
    · intro t c htt
      simp only [Function.update_apply] at htt
      rcases eq_or_ne t t0 with rfl | he
      · rw [if_pos rfl] at htt; cases htt
      · rw [if_neg he] at htt
        obtain ⟨info, hcall⟩ := inv.wait_rec t c htt
        rcases eq_or_ne c s.next with rfl | hc
        · rw [hfresh.1] at hcall; cases hcall
        · exact ⟨info, by simpa [Function.update_apply, if_neg hc] using hcall⟩
    · intro t c r htt
      simp only [Function.update_apply] at htt
      rcases eq_or_ne t t0 with rfl | he
      · rw [if_pos rfl] at htt; cases htt
      · rw [if_neg he] at htt
        obtain ⟨info, hcall, hpub, hr⟩ := inv.done_rec t c r htt
        rcases eq_or_ne c s.next with rfl | hc
        · rw [hfresh.1] at hcall; cases hcall
        · exact ⟨info, by simpa [Function.update_apply, if_neg hc] using hcall, hpub, hr⟩
    · intro c hc
      simp only at hc
      have hcn : c ≠ s.next := by omega
      have hold := inv.fresh c (by omega)
      refine ⟨?_, hold.2⟩
      simpa [Function.update_apply, if_neg hcn] using hold.1
    · intro c info hcc
      simp only [Function.update_apply] at hcc
      rcases eq_or_ne c s.next with rfl | he
      · rw [if_pos rfl] at hcc
        injection hcc with hinfo
        subst hinfo
        simpa using hfresh.2
      · rw [if_neg he] at hcc
        exact inv.inv_pub c info hcc
  | invokeFn t0 c0 fr0 ht =>
    obtain ⟨hcall0, hslot0, hfr0⟩ := inv.run_rec t0 c0 fr0 ht
    have hinv0 : s.invCount c0 = 0 := by
      have := inv.inv_pub c0 _ hcall0
      simpa using this
    refine ⟨?_, ?_, ?_, ?_, ?_, ?_, ?_, ?_, ?_, ?_⟩
    · intro t fr htt
      simp only [Function.update_apply] at htt
      rcases eq_or_ne t t0 with rfl | he
      · rw [if_pos rfl] at htt; cases htt
      · rw [if_neg he] at htt; exact inv.start_fr t fr htt
    · intro t c fr htt
      simp only [Function.update_apply] at htt
      rcases eq_or_ne t t0 with rfl | he
      · rw [if_pos rfl] at htt; cases htt
      · rw [if_neg he] at htt
        obtain ⟨hc, hsl, hfr⟩ := inv.run_rec t c fr htt
        rcases eq_or_ne c c0 with rfl | hcc
        · rw [hcall0] at hc
          injection hc with hinfo
          injection hinfo with h1 h2 h3
          exact absurd h1 (Ne.symm he)
        · exact ⟨by simpa [Function.update_apply, if_neg hcc] using hc, hsl, hfr⟩
    · intro t c htt
      simp only [Function.update_apply] at htt
      rcases eq_or_ne t t0 with rfl | he
      · rw [if_pos rfl] at htt
        injection htt with hcc
        subst hcc
        refine ⟨?_, hslot0⟩
        dsimp only
        rw [Function.update_same, hfr0]
      · rw [if_neg he] at htt
        obtain ⟨hc, hsl⟩ := inv.fin_rec t c htt
        rcases eq_or_ne c c0 with rfl | hcc
        · rw [hcall0] at hc
          injection hc with hinfo
          injection hinfo with h1 h2 h3
          cases h3
        · exact ⟨by simpa [Function.update_apply, if_neg hcc] using hc, hsl⟩
    · intro c info hcc
      simp only [Function.update_apply] at hcc
      rcases eq_or_ne c c0 with rfl | he
      · exact inv.calls_lt c ⟨t0, fr0, false⟩ hcall0
      · rw [if_neg he] at hcc
        exact inv.calls_lt c info hcc
    · intro c info hcc
      simp only [Function.update_apply] at hcc
      rcases eq_or_ne c c0 with rfl | he
      · rw [if_pos rfl] at hcc
        injection hcc with hinfo
        subst hinfo
        simpa using hfr0
      · rw [if_neg he] at hcc
        exact inv.calls_fr c info hcc
    · intro c hcs
      simp only at hcs
      obtain ⟨info, hcall⟩ := inv.slot_rec c hcs
      rcases eq_or_ne c c0 with rfl | he
      · exact ⟨⟨t0, fr0, true⟩, Function.update_same _ _ _⟩
      · exact ⟨info, by simpa [Function.update_apply, if_neg he] using hcall⟩
    · intro t c htt
      simp only [Function.update_apply] at htt
      rcases eq_or_ne t t0 with rfl | he
      · rw [if_pos rfl] at htt; cases htt
      · rw [if_neg he] at htt
        obtain ⟨info, hcall⟩ := inv.wait_rec t c htt
        rcases eq_or_ne c c0 with rfl | hcc
        · exact ⟨⟨t0, fr0, true⟩, Function.update_same _ _ _⟩
        · exact ⟨info, by simpa [Function.update_apply, if_neg hcc] using hcall⟩
    · intro t c r htt
      simp only [Function.update_apply] at htt
      rcases eq_or_ne t t0 with rfl | he
      · rw [if_pos rfl] at htt; cases htt
      · rw [if_neg he] at htt
        obtain ⟨info, hcall, hpub, hr⟩ := inv.done_rec t c r htt
        rcases eq_or_ne c c0 with rfl | hcc
        · rw [hcall0] at hcall
          injection hcall with hinfo
          rw [← hinfo] at hpub
          cases hpub
        · exact ⟨info, by simpa [Function.update_apply, if_neg hcc] using hcall, hpub, hr⟩
    · intro c hc
      simp only at hc
      have hlt := inv.calls_lt c0 _ hcall0
      have hcn : c ≠ c0 := by omega
      have hold := inv.fresh c hc
      constructor
      · simpa [Function.update_apply, if_neg hcn] using hold.1
      · simpa [Function.update_apply, if_neg hcn] using hold.2
    · intro c info hcc
      simp only [Function.update_apply] at hcc
      rcases eq_or_ne c c0 with rfl | he
      · rw [if_pos rfl] at hcc
        injection hcc with hinfo
        subst hinfo
        simp [Function.update_same, hinv0]
      · rw [if_neg he] at hcc
        have := inv.inv_pub c info hcc
        simpa [Function.update_apply, if_neg he] using this
  | forgetCall t0 c0 info0 ht hc =>
    obtain ⟨hcall0, hslot0⟩ := inv.fin_rec t0 c0 ht
    have hinfo : info0 = ⟨t0, fnOf t0, true⟩ := by
      rw [hc] at hcall0
      exact Option.some_injective _ hcall0
    refine ⟨?_, ?_, ?_, inv.calls_lt, inv.calls_fr, ?_, ?_, ?_, inv.fresh, inv.inv_pub⟩
    · intro t fr htt
      simp only [Function.update_apply] at htt
      rcases eq_or_ne t t0 with rfl | he
      · rw [if_pos rfl] at htt; cases htt
      · rw [if_neg he] at htt; exact inv.start_fr t fr htt
    · intro t c fr htt
      simp only [Function.update_apply] at htt
      rcases eq_or_ne t t0 with rfl | he
      · rw [if_pos rfl] at htt; cases htt
      · rw [if_neg he] at htt
        obtain ⟨hcl, hsl, -⟩ := inv.run_rec t c fr htt
        rw [hslot0] at hsl
        injection hsl with hcc
        subst hcc
        rw [hcall0] at hcl
        injection hcl with hinfo2
        injection hinfo2 with h1 h2 h3
        cases h3
    · intro t c htt
      simp only [Function.update_apply] at htt
      rcases eq_or_ne t t0 with rfl | he
      · rw [if_pos rfl] at htt; cases htt
      · rw [if_neg he] at htt
        obtain ⟨hcl, hsl⟩ := inv.fin_rec t c htt
        rw [hslot0] at hsl
        injection hsl with hcc
        subst hcc
        rw [hcall0] at hcl
        injection hcl with hinfo2
        injection hinfo2 with h1 h2 h3
        exact absurd h1 (Ne.symm he)
    · intro c hcs
      simp only at hcs
      cases hcs
    · intro t c htt
      simp only [Function.update_apply] at htt
      rcases eq_or_ne t t0 with rfl | he
      · rw [if_pos rfl] at htt; cases htt
      · rw [if_neg he] at htt; exact inv.wait_rec t c htt
    · intro t c r htt
      simp only [Function.update_apply] at htt
      rcases eq_or_ne t t0 with rfl | he
      · rw [if_pos rfl] at htt
        injection htt with hcc hr
        subst hcc
        subst hr
        exact ⟨info0, hc, by rw [hinfo], rfl⟩
      · rw [if_neg he] at htt; exact inv.done_rec t c r htt
  | waitReturn t0 c0 info0 ht hc hp =>
    refine ⟨?_, ?_, ?_, inv.calls_lt, inv.calls_fr, inv.slot_rec, ?_, ?_, inv.fresh, inv.inv_pub⟩
    · intro t fr htt
      simp only [Function.update_apply] at htt
      rcases eq_or_ne t t0 with rfl | he
      · rw [if_pos rfl] at htt; cases htt
      · rw [if_neg he] at htt; exact inv.start_fr t fr htt
    · intro t c fr htt
      simp only [Function.update_apply] at htt
      rcases eq_or_ne t t0 with rfl | he
      · rw [if_pos rfl] at htt; cases htt
      · rw [if_neg he] at htt; exact inv.run_rec t c fr htt
    · intro t c htt
      simp only [Function.update_apply] at htt
      rcases eq_or_ne t t0 with rfl | he
      · rw [if_pos rfl] at htt; cases htt
      · rw [if_neg he] at htt; exact inv.fin_rec t c htt
    · intro t c htt
      simp only [Function.update_apply] at htt
      rcases eq_or_ne t t0 with rfl | he
      · rw [if_pos rfl] at htt; cases htt
      · rw [if_neg he] at htt; exact inv.wait_rec t c htt
    · intro t c r htt
      simp only [Function.update_apply] at htt
      rcases eq_or_ne t t0 with rfl | he
      · rw [if_pos rfl] at htt
        injection htt with hcc hr
        subst hcc
        subst hr
        exact ⟨info0, hc, hp, rfl⟩
      · rw [if_neg he] at htt; exact inv.done_rec t c r htt

theorem sfReach_inv {R : Type} (fnOf : Nat → R) (s : SFState R)
    (h : SFReach fnOf s) : SFInv fnOf s := by
  induction h with
  | refl => exact sfInv_init fnOf
  | tail hab hbc ih => exact sfInv_step fnOf _ _ ih hbc

/-- C1: in every reachable interleaving of concurrent Do(key, fn) calls:
(a) a thread about to invoke fn is the caller that created the in-flight
record (the first caller of the window), and the window is still
unpublished; (b) the loader runs exactly once per published window and
never more than once per window, regardless of the number of attached
callers; (c) every caller that returned from window c received exactly the
(value, error) pair produced by that window's single fn invocation, which is
the first caller's fn; (d) the runner's final step removes the record from
the map, and a caller entering when no record is in flight creates a fresh
window whose fn it will invoke (so a later Do invokes fn again). -/
theorem singleflight_coalescing {R : Type} (fnOf : Nat → R) (s : SFState R)
    (hreach : SFReach fnOf s) :
    (∀ t c fr, s.threads t = .running c fr →
      ∃ info, s.calls c = some info ∧ info.owner = t ∧ info.published = false) ∧
    (∀ c info, s.calls c = some info →
      s.invCount c = (if info.published then 1 else 0) ∧ s.invCount c ≤ 1) ∧
    (∀ t c r, s.threads t = .done c r →
      ∃ info, s.calls c = some info ∧ r = info.fnres ∧ info.fnres = fnOf info.owner ∧
        s.invCount c = 1) ∧
    (∀ t c, s.threads t = .finishing c →
      SFStep s { s with
        slot := none
        threads := Function.update s.threads t (.done c (fnOf t)) }) ∧
    (∀ t fr, s.threads t = .start fr → s.slot = none →
      SFStep s { s with
        slot := some s.next
        calls := Function.update s.calls s.next (some ⟨t, fr, false⟩)
        next := s.next + 1
        threads := Function.update s.threads t (.running s.next fr) } ∧
      s.calls s.next = none) ∧
    (∀ t c fr, s.threads t = .running c fr →
      SFStep s { s with
        calls := Function.update s.calls c (some ⟨t, fr, true⟩)
        invCount := Function.update s.invCount c (s.invCount c + 1)
        threads := Function.update s.threads t (.finishing c) }) := by
  have inv := sfReach_inv fnOf s hreach
  refine ⟨?_, ?_, ?_, ?_, ?_, ?_⟩
  · intro t c fr htt
    obtain ⟨hc, -, -⟩ := inv.run_rec t c fr htt
    exact ⟨⟨t, fr, false⟩, hc, rfl, rfl⟩
  · intro c info hcc
    have h := inv.inv_pub c info hcc
    refine ⟨h, ?_⟩
    rw [h]
    by_cases hp : info.published <;> simp [hp]
  · intro t c r htt
    obtain ⟨info, hcall, hpub, hr⟩ := inv.done_rec t c r htt
    refine ⟨info, hcall, hr, inv.calls_fr c info hcall, ?_⟩
    have h := inv.inv_pub c info hcall
    rw [h, if_pos hpub]
  · intro t c htt
    obtain ⟨hcall, -⟩ := inv.fin_rec t c htt
    exact SFStep.forgetCall s t c ⟨t, fnOf t, true⟩ htt hcall
  · intro t fr htt hslot
    exact ⟨SFStep.createCall s t fr htt hslot, (inv.fresh s.next le_rfl).1⟩
  · intro t c fr htt
    exact SFStep.invokeFn s t c fr htt

/-- Witness for singleflight_coalescing at the initial state: the first
caller can enter and create a fresh window. -/
theorem singleflight_coalescing_witness :
    SFStep (sfInit (fun _ => (0 : Nat))) { sfInit (fun _ => (0 : Nat)) with
      slot := some (sfInit (fun _ => (0 : Nat))).next
      calls := Function.update (sfInit (fun _ => (0 : Nat))).calls
        (sfInit (fun _ => (0 : Nat))).next (some ⟨0, 0, false⟩)
      next := (sfInit (fun _ => (0 : Nat))).next + 1
      threads := Function.update (sfInit (fun _ => (0 : Nat))).threads 0
        (.running (sfInit (fun _ => (0 : Nat))).next 0) } ∧
    (sfInit (fun _ => (0 : Nat))).calls (sfInit (fun _ => (0 : Nat))).next = none :=
  (singleflight_coalescing (fun _ => (0 : Nat)) (sfInit (fun _ => (0 : Nat)))
    Relation.ReflTransGen.refl).2.2.2.2.1 0 0 rfl rfl
